import Mathlib

/-!
# Verification of the `similar-files` similarity engine

Shallow embedding of the `similar-files` repository (scripts
`similar-find` / `similar-index` and `shared.mjs`) together with proofs
of the spec's claims about it.

Numeric values are modelled with `ℚ`.  JavaScript's
`Math.round(x * 100) / 100` is modelled as `⌊x * 100 + 1/2⌋ / 100`,
and likewise at 4 decimal places.
-/

namespace SimilarFiles

/-! ## Rounding (from `Math.round(x * 10^k) / 10^k` in the source) -/

/-- `Math.round(x * 100) / 100` — rounding to 2 decimal places used on
reported similarity scores (find script, result construction). -/
def round2 (x : ℚ) : ℚ := (⌊x * 100 + 1/2⌋ : ℤ) / 100

/-- `Math.round(x * 10000) / 10000` — rounding to 4 decimal places used
when sparse-encoding vectors (index script, `sparseVectors`). -/
def round4 (x : ℚ) : ℚ := (⌊x * 10000 + 1/2⌋ : ℤ) / 10000

/-! ## Data model (§3 of the spec, `index.metadata` entries and query results) -/

/-- The fields of an `index.metadata[i]` entry that the find script reads. -/
structure Meta where
  path : String
  title : String
  ext : String
deriving DecidableEq, Repr

/-- One entry of the result list built in `findSimilar`
(`{ path, title, similarity, ext }`). -/
structure ResultEntry where
  path : String
  title : String
  similarity : ℚ
  ext : String
deriving DecidableEq, Repr

/-- The query context produced by `getQueryContent`: `isText` is true for
`--text` queries; for file queries `absolutePath` is the resolved path of
the query file and `title` its workspace-relative path (or the raw query
string when the index stores no root). -/
structure QueryCtx where
  isText : Bool
  absolutePath : Option String
  title : String
deriving DecidableEq, Repr

/-- `workspaceRoot ? resolve(workspaceRoot, path) : path` from the
self-match check in `findSimilar`.  `resolve` is Node's `path.resolve`,
kept abstract as a parameter. -/
def docAbsPath (resolve : String → String → String) (workspaceRoot : Option String)
    (path : String) : String :=
  match workspaceRoot with
  | some r => resolve r path
  | none => path

/-- The self-match test of `findSimilar` (find script): a candidate is
skipped when the query is a file query and either its resolved absolute
path equals the query file's absolute path, or its stored path equals the
query title (the query file's workspace-relative path). -/
def selfMatch (resolve : String → String → String) (workspaceRoot : Option String)
    (q : QueryCtx) (m : Meta) : Bool :=
  !q.isText &&
    ((match q.absolutePath with
      | some a => docAbsPath resolve workspaceRoot m.path == a
      | none => false) ||
     m.path == q.title)

/-- The body of the candidate loop in `findSimilar`: self-matches are
skipped first, then the inclusive threshold test `similarity >= threshold`
is applied to the full-precision score, and surviving candidates are
recorded with their score rounded to 2 decimal places. -/
def filterResults (resolve : String → String → String) (workspaceRoot : Option String)
    (q : QueryCtx) (threshold : ℚ) (cands : List (Meta × ℚ)) : List ResultEntry :=
  cands.filterMap fun c =>
    if selfMatch resolve workspaceRoot q c.1 then none
    else if threshold ≤ c.2 then
      some { path := c.1.path, title := c.1.title,
             similarity := round2 c.2, ext := c.1.ext }
    else none

/-- Insert an entry into a list already sorted by descending `similarity`,
after every strictly greater entry and before equal ones.  Together with
`sortDesc` this models the stable `results.sort((a, b) => b.similarity -
a.similarity)` of the find script (`Array.prototype.sort` is stable). -/
def insertDesc (e : ResultEntry) : List ResultEntry → List ResultEntry
  | [] => [e]
  | x :: xs => if e.similarity < x.similarity then x :: insertDesc e xs else e :: x :: xs

/-- Stable sort by descending `similarity` (insertion sort). -/
def sortDesc : List ResultEntry → List ResultEntry
  | [] => []
  | x :: xs => insertDesc x (sortDesc xs)

/-- The result computation of `findSimilar` (find script): filter the
candidates, sort the recorded entries by descending (rounded) similarity,
and keep the first `top`. -/
def findSimilarResults (resolve : String → String → String)
    (workspaceRoot : Option String) (q : QueryCtx) (threshold : ℚ) (top : Nat)
    (cands : List (Meta × ℚ)) : List ResultEntry :=
  (sortDesc (filterResults resolve workspaceRoot q threshold cands)).take top

/-! ## Basic lemmas about the stable descending sort -/

theorem mem_insertDesc {e y : ResultEntry} {l : List ResultEntry} :
    y ∈ insertDesc e l ↔ y = e ∨ y ∈ l := by
  induction l with
  | nil => simp [insertDesc]
  | cons x xs ih =>
    simp only [insertDesc]
    split
    · simp only [List.mem_cons, ih]
      tauto
    · simp only [List.mem_cons]

theorem mem_sortDesc {y : ResultEntry} {l : List ResultEntry} :
    y ∈ sortDesc l ↔ y ∈ l := by
  induction l with
  | nil => simp [sortDesc]
  | cons x xs ih => simp [sortDesc, mem_insertDesc, ih]

theorem pairwise_insertDesc {e : ResultEntry} {l : List ResultEntry}
    (h : l.Pairwise (fun a b => b.similarity ≤ a.similarity)) :
    (insertDesc e l).Pairwise (fun a b => b.similarity ≤ a.similarity) := by
  induction l with
  | nil => simp [insertDesc]
  | cons x xs ih =>
    simp only [insertDesc]
    rcases List.pairwise_cons.mp h with ⟨hx, hxs⟩
    split
    · rename_i hlt
      refine List.pairwise_cons.mpr ⟨?_, ih hxs⟩
      intro y hy
      rcases mem_insertDesc.mp hy with rfl | hy
      · exact le_of_lt hlt
      · exact hx y hy
    · rename_i hnlt
      refine List.pairwise_cons.mpr ⟨?_, h⟩
      intro y hy
      rcases List.mem_cons.mp hy with rfl | hy
      · exact le_of_not_lt hnlt
      · exact le_trans (hx y hy) (le_of_not_lt hnlt)

theorem pairwise_sortDesc (l : List ResultEntry) :
    (sortDesc l).Pairwise (fun a b => b.similarity ≤ a.similarity) := by
  induction l with
  | nil => simp [sortDesc]
  | cons x xs ih => exact pairwise_insertDesc ih

theorem mem_filterResults {resolve : String → String → String}
    {workspaceRoot : Option String} {q : QueryCtx} {t : ℚ}
    {cands : List (Meta × ℚ)} {e : ResultEntry}
    (h : e ∈ filterResults resolve workspaceRoot q t cands) :
    ∃ c ∈ cands, selfMatch resolve workspaceRoot q c.1 = false ∧ t ≤ c.2 ∧
      e = { path := c.1.path, title := c.1.title,
            similarity := round2 c.2, ext := c.1.ext } := by
  rcases List.mem_filterMap.mp h with ⟨c, hc, hfc⟩
  refine ⟨c, hc, ?_⟩
  by_cases hsm : selfMatch resolve workspaceRoot q c.1
  · simp [hsm] at hfc
  · simp only [hsm, if_false, Bool.false_eq_true] at hfc
    by_cases hth : t ≤ c.2
    · simp only [hth, if_true] at hfc
      exact ⟨by simp [hsm], hth, (Option.some_inj.mp hfc).symm⟩
    · simp [hth] at hfc

/-- C1: For every query invocation with threshold `t` and result limit `n`,
the result list of `findSimilar` has length at most `n`, is sorted in
descending order of the similarity recorded in its entries, and each entry
originates from an indexed candidate whose full-precision similarity score
is at least `t` (the threshold is inclusive), the entry reporting that
score rounded to two decimal places. -/
theorem findSimilar_threshold_topN_contract
    (resolve : String → String → String) (workspaceRoot : Option String)
    (q : QueryCtx) (t : ℚ) (n : Nat) (cands : List (Meta × ℚ)) :
    (findSimilarResults resolve workspaceRoot q t n cands).length ≤ n ∧
    (findSimilarResults resolve workspaceRoot q t n cands).Pairwise
      (fun a b => b.similarity ≤ a.similarity) ∧
    ∀ e ∈ findSimilarResults resolve workspaceRoot q t n cands,
      ∃ c ∈ cands, e.path = c.1.path ∧ t ≤ c.2 ∧ e.similarity = round2 c.2 := by
  refine ⟨?_, ?_, ?_⟩
  · simp only [findSimilarResults]
    exact List.length_take_le n (sortDesc (filterResults resolve workspaceRoot q t cands))
  · exact (pairwise_sortDesc _).sublist (List.take_sublist _ _)
  · intro e he
    have he' : e ∈ sortDesc (filterResults resolve workspaceRoot q t cands) :=
      (List.take_sublist _ _).mem he
    rcases mem_filterResults (mem_sortDesc.mp he') with ⟨c, hc, _, hth, rfl⟩
    exact ⟨c, hc, rfl, hth, rfl⟩

/-! ## Full-precision ranking (spec-modelled, for the refinement claim about
rounding) -/

/-- Modelled from the spec: stable insertion into a list of candidates
sorted by descending full-precision score. -/
def insertDescQ (c : Meta × ℚ) : List (Meta × ℚ) → List (Meta × ℚ)
  | [] => [c]
  | x :: xs => if c.2 < x.2 then x :: insertDescQ c xs else c :: x :: xs

/-- Modelled from the spec: stable sort of candidates by descending
full-precision score. -/
def sortDescQ : List (Meta × ℚ) → List (Meta × ℚ)
  | [] => []
  | x :: xs => insertDescQ x (sortDescQ xs)

/-- Modelled from the spec (§4.4): filter on the inclusive threshold,
sort descending on the full-precision cosine similarity, truncate to the
top `n`, and round only the reported value. -/
def findSimilarFullPrecision (resolve : String → String → String)
    (workspaceRoot : Option String) (q : QueryCtx) (threshold : ℚ) (top : Nat)
    (cands : List (Meta × ℚ)) : List ResultEntry :=
  ((sortDescQ (cands.filter fun c =>
      !selfMatch resolve workspaceRoot q c.1 && threshold ≤ c.2)).take top).map
    fun c => { path := c.1.path, title := c.1.title,
               similarity := round2 c.2, ext := c.1.ext }

/-! ## Stability of the sort with respect to equal scores -/

theorem filter_insertDesc (v : ℚ) (e : ResultEntry) (l : List ResultEntry) :
    (insertDesc e l).filter (fun x => x.similarity == v) =
      if e.similarity == v then e :: l.filter (fun x => x.similarity == v)
      else l.filter (fun x => x.similarity == v) := by
  induction l with
  | nil =>
    by_cases h : e.similarity = v <;> simp [insertDesc, h]
  | cons x xs ih =>
    simp only [insertDesc]
    split
    · rename_i hlt
      by_cases hev : e.similarity = v
      · have hx : ¬ x.similarity = v := ne_of_gt (hev ▸ hlt)
        simp [List.filter_cons, hx, ih, hev]
      · simp only [List.filter_cons, ih, hev]
        by_cases hx : x.similarity = v <;> simp [hx, hev]
    · by_cases hev : e.similarity = v <;> simp [List.filter_cons, hev]

theorem filter_sortDesc (v : ℚ) (l : List ResultEntry) :
    (sortDesc l).filter (fun x => x.similarity == v) =
      l.filter (fun x => x.similarity == v) := by
  induction l with
  | nil => simp [sortDesc]
  | cons x xs ih =>
    simp only [sortDesc, filter_insertDesc, ih, List.filter_cons]

theorem entry_of_mem_filterResults {resolve : String → String → String}
    {workspaceRoot : Option String} {q : QueryCtx} {t : ℚ}
    {cands : List (Meta × ℚ)} {e : ResultEntry} :
    e ∈ filterResults resolve workspaceRoot q t cands ↔
      ∃ c ∈ cands, selfMatch resolve workspaceRoot q c.1 = false ∧ t ≤ c.2 ∧
        e = { path := c.1.path, title := c.1.title,
              similarity := round2 c.2, ext := c.1.ext } := by
  constructor
  · exact mem_filterResults
  · rintro ⟨c, hc, hsm, hth, rfl⟩
    refine List.mem_filterMap.mpr ⟨c, hc, ?_⟩
    simp [hsm, hth]

/-- Counterexample to C2: with candidate scores `0.121` and `0.124` (both
rounding to `0.12`), the find script's result order differs from the
order produced by sorting on the full-precision scores, because the
script sorts on the already-rounded stored values. -/
theorem findSimilar_sort_not_fullPrecision_cex :
    findSimilarResults (fun r p => r ++ "/" ++ p) none ⟨true, none, "Query"⟩ 0 10
        [(⟨"a.md", "A", ".md"⟩, 121/1000), (⟨"b.md", "B", ".md"⟩, 124/1000)] ≠
      findSimilarFullPrecision (fun r p => r ++ "/" ++ p) none ⟨true, none, "Query"⟩ 0 10
        [(⟨"a.md", "A", ".md"⟩, 121/1000), (⟨"b.md", "B", ".md"⟩, 124/1000)] := by
  norm_num [findSimilarResults, findSimilarFullPrecision, filterResults, selfMatch,
    sortDesc, insertDesc, sortDescQ, insertDescQ, List.filterMap, List.filter,
    round2, Int.floor_eq_iff]
  intro h
  exact absurd h (by decide)

/-- C2 (amended): the threshold comparison is performed on the
full-precision cosine similarity, but each recorded entry already stores
its score rounded to 2 decimal places and the descending sort operates on
those rounded values; entries whose rounded scores are equal keep their
original candidate order (the sort is stable), and the returned list is
the first `n` entries of that rounded-score sort. -/
theorem findSimilar_rounded_sort_characterization
    (resolve : String → String → String) (workspaceRoot : Option String)
    (q : QueryCtx) (t : ℚ) (n : Nat) (cands : List (Meta × ℚ)) :
    (∀ e, e ∈ sortDesc (filterResults resolve workspaceRoot q t cands) ↔
      ∃ c ∈ cands, selfMatch resolve workspaceRoot q c.1 = false ∧ t ≤ c.2 ∧
        e = { path := c.1.path, title := c.1.title,
              similarity := round2 c.2, ext := c.1.ext }) ∧
    (∀ v, (sortDesc (filterResults resolve workspaceRoot q t cands)).filter
        (fun e => e.similarity == v) =
      (filterResults resolve workspaceRoot q t cands).filter
        (fun e => e.similarity == v)) ∧
    findSimilarResults resolve workspaceRoot q t n cands =
      (sortDesc (filterResults resolve workspaceRoot q t cands)).take n := by
  refine ⟨?_, ?_, rfl⟩
  · intro e
    rw [mem_sortDesc]
    exact entry_of_mem_filterResults
  · intro v
    exact filter_sortDesc v _

/-- Witness for the amended C2 at a concrete input: a candidate passing
the full-precision threshold produces its rounded entry in the sorted
result list. -/
theorem findSimilar_rounded_sort_characterization_witness :
    ({ path := "a.md", title := "A", similarity := 12/100, ext := ".md" } : ResultEntry) ∈
      sortDesc (filterResults (fun r p => r ++ "/" ++ p) none ⟨true, none, "Query"⟩ (1/10)
        [(⟨"a.md", "A", ".md"⟩, 121/1000)]) :=
  ((findSimilar_rounded_sort_characterization (fun r p => r ++ "/" ++ p) none
      ⟨true, none, "Query"⟩ (1/10) 10 [(⟨"a.md", "A", ".md"⟩, 121/1000)]).1 _).mpr
    ⟨(⟨"a.md", "A", ".md"⟩, 121/1000), by simp, by simp [selfMatch], by norm_num,
      by norm_num [round2, Int.floor_eq_iff]⟩

/-- Witness for C1 at a concrete input: the single returned entry comes
from a candidate above the threshold, with its score rounded. -/
theorem findSimilar_threshold_topN_contract_witness :
    ∃ c ∈ [((⟨"a.md", "A", ".md"⟩ : Meta), (1/2 : ℚ))],
      ({ path := "a.md", title := "A", similarity := 1/2, ext := ".md" } :
          ResultEntry).path = c.1.path ∧
        (1/10 : ℚ) ≤ c.2 ∧
        ({ path := "a.md", title := "A", similarity := 1/2, ext := ".md"} :
          ResultEntry).similarity = round2 c.2 :=
  (findSimilar_threshold_topN_contract (fun r p => r ++ "/" ++ p) (some "/w")
      ⟨true, none, "Query"⟩ (1/10) 10 [(⟨"a.md", "A", ".md"⟩, 1/2)]).2.2 _
    (by norm_num [findSimilarResults, filterResults, selfMatch, sortDesc, insertDesc,
        List.filterMap, round2, Int.floor_eq_iff])

/-- C3: for a file query, every entry of the result list originates from an
indexed candidate that is neither path-identical to the query's resolved
source file nor identifier-identical to the query's relative-path title —
the query's own document is excluded (before thresholding, as part of the
same loop) and never appears among the results. -/
theorem findSimilar_self_exclusion
    (resolve : String → String → String) (workspaceRoot : Option String)
    (q : QueryCtx) (t : ℚ) (n : Nat) (cands : List (Meta × ℚ))
    (hfile : q.isText = false) :
    ∀ e ∈ findSimilarResults resolve workspaceRoot q t n cands,
      ∃ c ∈ cands,
        e = { path := c.1.path, title := c.1.title,
              similarity := round2 c.2, ext := c.1.ext } ∧
        (∀ a, q.absolutePath = some a →
          docAbsPath resolve workspaceRoot c.1.path ≠ a) ∧
        c.1.path ≠ q.title := by
  intro e he
  have he' : e ∈ sortDesc (filterResults resolve workspaceRoot q t cands) :=
    (List.take_sublist _ _).mem he
  rcases mem_filterResults (mem_sortDesc.mp he') with ⟨c, hc, hsm, _, rfl⟩
  refine ⟨c, hc, rfl, ?_, ?_⟩
  · intro a ha
    intro habs
    apply Bool.noConfusion (hsm ▸ ?_ : false = true)
    simp [selfMatch, hfile, ha, habs]
  · intro htitle
    apply Bool.noConfusion (hsm ▸ ?_ : false = true)
    simp [selfMatch, hfile, htitle]

/-- Witness for C3 at a concrete input: a file query over an index holding
the query's own file and one other document returns only entries that come
from non-self candidates. -/
theorem findSimilar_self_exclusion_witness :
    ∃ c ∈ [((⟨"q.md", "Q", ".md"⟩ : Meta), (1 : ℚ)),
           ((⟨"b.md", "B", ".md"⟩ : Meta), (1/2 : ℚ))],
      ({ path := "b.md", title := "B", similarity := 1/2, ext := ".md" } :
          ResultEntry) =
        { path := c.1.path, title := c.1.title,
          similarity := round2 c.2, ext := c.1.ext } ∧
      (∀ a, (⟨false, some "/w/q.md", "q.md"⟩ : QueryCtx).absolutePath = some a →
        docAbsPath (fun r p => r ++ "/" ++ p) (some "/w") c.1.path ≠ a) ∧
      c.1.path ≠ (⟨false, some "/w/q.md", "q.md"⟩ : QueryCtx).title :=
  findSimilar_self_exclusion (fun r p => r ++ "/" ++ p) (some "/w")
    ⟨false, some "/w/q.md", "q.md"⟩ (1/10) 10
    [((⟨"q.md", "Q", ".md"⟩ : Meta), (1 : ℚ)),
     ((⟨"b.md", "B", ".md"⟩ : Meta), (1/2 : ℚ))] rfl _
    (by norm_num [findSimilarResults, filterResults, selfMatch, docAbsPath,
        sortDesc, insertDesc, List.filterMap, round2, Int.floor_eq_iff])

/-! ## Index loading (`loadIndex` in the find script)

The file system and JSON parsing are modelled by the function's input:
`none` stands for a missing index file (Node's `ENOENT`, on which the
script prints "Index not found …, run: similar-index" and exits — the
NotFound condition), `some raw` for a successfully parsed JSON object.
A field absent from the JSON object is `none` in `RawIndex`. -/

/-- The parsed index object as `loadIndex` sees it: only the fields the
validation reads are modelled, each optional because JSON may omit it.
`version` keeps its numeric value because JavaScript's `!index.version`
is also true for a present value `0`. -/
structure RawIndex where
  version : Option Int
  vectors : Option (List (List (Nat × ℚ)))
  metadata : Option (List Meta)
deriving DecidableEq, Repr

/-- Outcome of `loadIndex`: `notFound` is the ENOENT branch (exit with the
instruction to run the build), `invalidFormat` the thrown
`'Invalid index format'` error (the Corrupt condition). -/
inductive LoadResult where
  | notFound
  | invalidFormat
  | ok (index : RawIndex)
deriving DecidableEq, Repr

/-- `loadIndex` (find script): missing file → NotFound; otherwise the
validation `!index.version || !index.vectors || !index.metadata` — a
falsy `version` (absent or `0`) or an absent `vectors` or `metadata`
field — raises the invalid-format error, and anything else is returned
unchanged. -/
def loadIndex : Option RawIndex → LoadResult
  | none => .notFound
  | some index =>
    if index.version.getD 0 == 0 || index.vectors.isNone || index.metadata.isNone then
      .invalidFormat
    else .ok index

/-- Counterexample to C4: an index whose `metadata` and `vectors` sequences
have different lengths (1 ≠ 0) passes `loadIndex`'s validation unchanged —
the length invariant is never checked, so such an index does not fail with
the Corrupt condition. -/
theorem loadIndex_no_length_check_cex :
    loadIndex (some ⟨some 3, some [], some [⟨"a.md", "A", ".md"⟩]⟩) =
      .ok ⟨some 3, some [], some [⟨"a.md", "A", ".md"⟩]⟩ ∧
    ([(⟨"a.md", "A", ".md"⟩ : Meta)].length ≠
      ([] : List (List (Nat × ℚ))).length) := by
  exact ⟨rfl, by decide⟩

/-- C4 (amended): loading fails with NotFound when the index file is
absent, and with the Corrupt condition exactly when a required field is
missing — `version` absent (or `0`), `vectors` absent, or `metadata`
absent; a mismatch between the metadata and vectors lengths is not
detected, so a structurally inconsistent index with all three fields
present loads successfully. -/
theorem loadIndex_notFound_and_field_checks :
    loadIndex none = .notFound ∧
    (∀ idx : RawIndex, loadIndex (some idx) = .invalidFormat ↔
      (idx.version = none ∨ idx.version = some 0 ∨
       idx.vectors = none ∨ idx.metadata = none)) ∧
    (∀ idx : RawIndex, loadIndex (some idx) ≠ .invalidFormat →
      loadIndex (some idx) = .ok idx) := by
  refine ⟨rfl, ?_, ?_⟩
  · rintro ⟨v, ve, m⟩
    rcases v with _ | v
    · simp [loadIndex]
    · rcases ve with _ | ve
      · simp [loadIndex]
      · rcases m with _ | m
        · simp [loadIndex]
        · by_cases hv : v = 0 <;> simp [loadIndex, hv]
  · intro idx h
    simp only [loadIndex] at h ⊢
    split <;> simp_all

/-! ## Persistence of the index (`buildIndex`, index script)

The build's file-system side effects are embedded as the ordered list of
operations it performs. -/

/-- A file-system side effect of the index build. -/
inductive FsOp where
  | mkdirRecursive (path : String)
  | write (path content : String)
  | rename (src dst : String)
deriving DecidableEq, Repr

/-- The persistence steps of `buildIndex` (index script): ensure the index
directory exists (`mkdir(indexDir, { recursive: true })`), then write the
serialized index directly to the final index file
(`writeFile(indexFile, JSON.stringify(index, null, 2))`). -/
def buildIndexPersistOps (indexDir indexFile serialized : String) : List FsOp :=
  [.mkdirRecursive indexDir, .write indexFile serialized]

/-- Modelled from the spec: `save(index)` "persists the full Index
atomically (entire file replaced, not appended/merged)" with "atomic
replace (write-temp-then-rename, or equivalent)" — content reaches the
target path only through a rename, never through a direct write to the
target path itself. -/
def atomicReplace (ops : List FsOp) (target : String) : Bool :=
  (ops.all fun op => match op with
    | .write p _ => p != target
    | _ => true) &&
  (ops.any fun op => match op with
    | .rename _ dst => dst == target
    | _ => false)

/-- Counterexample to C5: at the default index location, the persistence
steps of `buildIndex` are not an atomic replace of the index file — the
serialized index is written directly to the final path and no rename is
performed. -/
theorem buildIndex_not_atomicReplace_cex :
    atomicReplace
        (buildIndexPersistOps "/w/.similar-files" "/w/.similar-files/index.json" "{}")
        "/w/.similar-files/index.json" = false := by
  decide

/-- C5 (amended): the build persists the full index in one direct
`writeFile` of the serialized index to the final index path, after creating
the index directory; the file is replaced wholesale (never appended or
merged) but not via temp-file-then-rename, so the replacement is not
atomic and a concurrent reader can observe a partially written file. -/
theorem buildIndex_persists_by_direct_write
    (indexDir indexFile serialized : String) :
    buildIndexPersistOps indexDir indexFile serialized =
      [.mkdirRecursive indexDir, .write indexFile serialized] ∧
    ((buildIndexPersistOps indexDir indexFile serialized).any fun op =>
      match op with
      | .rename _ _ => true
      | _ => false) = false ∧
    .write indexFile serialized ∈ buildIndexPersistOps indexDir indexFile serialized := by
  exact ⟨rfl, rfl, by simp [buildIndexPersistOps]⟩

/-! ## Sparse vector encoding (`buildIndex` sparse loop, and
`expandSparseVector` in shared.mjs) -/

/-- `expandSparseVector` (shared.mjs): allocate a dense zero vector of the
given dimension and write each sparse entry's value at its index. -/
def expandSparseVector (sparse : List (Nat × ℚ)) (dim : Nat) : List ℚ :=
  sparse.foldl (fun dense e => dense.set e.1 e.2) (List.replicate dim 0)

/-- The sparse-encoding loop of `buildIndex` (index script), with `i`
tracking the current position: entries equal to `0` are dropped and every
other entry is stored under its position with its value rounded to 4
decimal places. -/
def sparsifyFrom (i : Nat) : List ℚ → List (Nat × ℚ)
  | [] => []
  | x :: xs =>
    if x ≠ 0 then (i, round4 x) :: sparsifyFrom (i + 1) xs
    else sparsifyFrom (i + 1) xs

/-- `vectors.map(vec => …)` body of `buildIndex`: sparse-encode a dense
vector starting at position 0. -/
def sparsify (vec : List ℚ) : List (Nat × ℚ) := sparsifyFrom 0 vec

/-- Counterexample to C6: the dense vector `[0.00002, 1]` is compressed to
the sparse vector `{0: 0, 1: 1}` — the entry at position 0 is non-zero, so
it is retained, but its value rounds to `0` at 4 decimal places; expanding
and re-compressing drops that entry, yielding `{1: 1}`, a different
SparseVector. -/
theorem sparsify_roundTrip_cex :
    sparsify (expandSparseVector (sparsify [1/50000, 1]) 2) ≠
      sparsify [1/50000, 1] := by
  norm_num [sparsify, sparsifyFrom, expandSparseVector, round4,
    Int.floor_eq_iff, List.set]

theorem round4_zero : round4 0 = 0 := by
  norm_num [round4]

theorem round4_intCast_div (m : ℤ) : round4 ((m : ℚ) / 10000) = (m : ℚ) / 10000 := by
  have h : ((m : ℚ) / 10000) * 10000 = (m : ℚ) := by norm_num
  rw [round4, h, show ((m : ℚ) + 1/2) = (1/2 : ℚ) + (m : ℤ) by ring,
    Int.floor_add_int]
  norm_num

theorem round4_round4 (x : ℚ) : round4 (round4 x) = round4 x := by
  have h : round4 x = ((⌊x * 10000 + 1/2⌋ : ℤ) : ℚ) / 10000 := rfl
  rw [h, round4_intCast_div]

theorem expand_sparsifyFrom (xs : List ℚ) (pre : List ℚ) :
    (sparsifyFrom pre.length xs).foldl (fun d e => d.set e.1 e.2)
        (pre ++ List.replicate xs.length 0) =
      pre ++ xs.map round4 := by
  induction xs generalizing pre with
  | nil => simp [sparsifyFrom]
  | cons x xs ih =>
    simp only [sparsifyFrom, List.length_cons, List.replicate_succ]
    by_cases hx : x = 0
    · simp only [hx, ne_eq, not_true_eq_false, if_false]
      have h0 : pre ++ (0 : ℚ) :: List.replicate xs.length 0 =
          (pre ++ [0]) ++ List.replicate xs.length 0 := by simp
      have hlen : pre.length + 1 = (pre ++ [(0 : ℚ)]).length := by simp
      rw [h0, hlen, ih]
      simp [round4_zero]
    · simp only [ne_eq, hx, not_false_iff, if_true, List.foldl_cons]
      have hset : (pre ++ (0 : ℚ) :: List.replicate xs.length 0).set pre.length
          (round4 x) = (pre ++ [round4 x]) ++ List.replicate xs.length 0 := by
        rw [List.set_append]
        simp
      have hlen : pre.length + 1 = (pre ++ [round4 x]).length := by simp
      rw [hset, hlen, ih]
      simp

theorem expand_sparsify (vec : List ℚ) :
    expandSparseVector (sparsify vec) vec.length = vec.map round4 := by
  have h := expand_sparsifyFrom vec []
  simpa [expandSparseVector, sparsify] using h

theorem sparsifyFrom_map_round4 (xs : List ℚ)
    (hnz : ∀ x ∈ xs, x ≠ 0 → round4 x ≠ 0) (i : Nat) :
    sparsifyFrom i (xs.map round4) = sparsifyFrom i xs := by
  induction xs generalizing i with
  | nil => rfl
  | cons x xs ih =>
    have ih' := ih (fun y hy => hnz y (List.mem_cons_of_mem x hy))
    simp only [List.map_cons, sparsifyFrom]
    by_cases hx : x = 0
    · simp [hx, round4_zero, ih']
    · have h4 : round4 x ≠ 0 := hnz x (List.mem_cons_self x xs) hx
      simp [hx, h4, round4_round4, ih']

theorem sparsifyFrom_retains (xs : List ℚ) (k : Nat) (x : ℚ)
    (hk : xs.get? k = some x) (hx : x ≠ 0) (i : Nat) :
    (i + k, round4 x) ∈ sparsifyFrom i xs := by
  induction xs generalizing i k with
  | nil => simp at hk
  | cons y ys ih =>
    cases k with
    | zero =>
      simp only [List.get?_cons_zero, Option.some_inj] at hk
      subst hk
      simp [sparsifyFrom, hx]
    | succ k =>
      simp only [List.get?_cons_succ] at hk
      have h := ih k hk (i + 1)
      have harith : i + 1 + k = i + (k + 1) := by omega
      rw [harith] at h
      by_cases hy : y = 0
      · simpa [sparsifyFrom, hy] using h
      · simp only [sparsifyFrom, ne_eq, hy, not_false_iff, if_true]
        exact List.mem_cons_of_mem _ h

/-- C6 (amended): expanding a build-produced SparseVector to dense form and
re-compressing yields the same SparseVector provided every retained
entry's rounded value is non-zero (no dense entry with absolute value
below the 4-decimal rounding grain); and every non-zero entry of the
dense vector is always retained in the sparse encoding, at its position,
with its value rounded to 4 decimal places.  An entry whose value rounds
to 0 is stored as an explicit zero and dropped by re-compression. -/
theorem sparsify_roundTrip (vec : List ℚ) (dim : Nat) (hdim : vec.length = dim)
    (hnz : ∀ x ∈ vec, x ≠ 0 → round4 x ≠ 0) :
    sparsify (expandSparseVector (sparsify vec) dim) = sparsify vec ∧
    ∀ k x, vec.get? k = some x → x ≠ 0 → (k, round4 x) ∈ sparsify vec := by
  subst hdim
  refine ⟨?_, ?_⟩
  · rw [expand_sparsify, sparsify, sparsifyFrom_map_round4 vec hnz]
    rfl
  · intro k x hk hx
    have h := sparsifyFrom_retains vec k x hk hx 0
    simpa [sparsify] using h

/-- Witness for the amended C6 at a concrete input: the dense vector
`[0.5, 1]` (all rounded values non-zero) round-trips through sparse
encoding, and both entries are retained. -/
theorem sparsify_roundTrip_witness :
    sparsify (expandSparseVector (sparsify [1/2, 1]) 2) = sparsify [1/2, 1] ∧
    ∀ k x, ([(1 : ℚ)/2, 1] : List ℚ).get? k = some x → x ≠ 0 →
      (k, round4 x) ∈ sparsify [1/2, 1] :=
  sparsify_roundTrip [1/2, 1] 2 rfl
    (by
      intro x hx hne
      rcases List.mem_cons.mp hx with rfl | hx'
      · norm_num [round4, Int.floor_eq_iff]
      · rcases List.mem_cons.mp hx' with rfl | hx''
        · norm_num [round4, Int.floor_eq_iff]
        · simp at hx'')

/-! ## Document reading and index construction (`buildIndex`, index script)

The per-file string helpers that feed the loop — Node's
`relative(root, filePath)`, `buildEnrichedContent`, `extractTitle`, and
quarrel's `fingerprintText` — are collaborator functions kept abstract as
parameters; the loop structure, the lockstep pushes and the error
recovery are embedded from the source. -/

/-- `extname(p).toLowerCase()`-style suffix of the last `/`-segment:
Node's `path.extname` — the suffix from the last `.` of the basename,
empty when the basename has no dot or only a leading one. -/
def extname (s : String) : String :=
  let b := (s.toList.reverse.takeWhile (fun c => c ≠ '/')).reverse
  match ((b.enum.filter (fun p => p.2 = '.')).map (fun p => p.1)).getLast? with
  | none => ""
  | some 0 => ""
  | some i => String.mk (b.drop i)

/-- `.toLowerCase()` on an extension, character by character (ASCII in
practice, as extensions are). -/
def toLowerStr (s : String) : String := String.mk (s.toList.map Char.toLower)

/-- A document pushed onto `docs` (`{ id, title, content }`). -/
structure Doc where
  id : String
  title : String
  content : String
deriving DecidableEq, Repr

/-- A metadata record pushed onto `metadata`
(`{ id, path, title, fingerprint, ext, tags }`). -/
structure DocMeta where
  id : String
  path : String
  title : String
  fingerprint : String
  ext : String
  tags : List String
deriving DecidableEq, Repr

/-- The collaborator functions the loop body calls on a successfully read
file, abstract parameters of the embedding: `relativeT` is
`relative(root, filePath)`, `enrichT content path` the
`enrichedContent` of `buildEnrichedContent`, `titleT content path` the
extracted title, `fingerT` quarrel's `fingerprintText`, and `tagsT` the
frontmatter tags. -/
structure FileFns where
  relativeT : String → String
  enrichT : String → String → String
  titleT : String → String → String
  fingerT : String → String
  tagsT : String → List String

/-- The document built for a readable file (the `docs.push` of the loop). -/
def mkDoc (fns : FileFns) (path content : String) : Doc :=
  { id := fns.relativeT path, title := fns.titleT content path,
    content := fns.enrichT content path }

/-- The metadata record built for a readable file (the `metadata.push`
of the loop); `id` and `path` are both the workspace-relative path. -/
def mkMeta (fns : FileFns) (path content : String) : DocMeta :=
  { id := fns.relativeT path, path := fns.relativeT path,
    title := fns.titleT content path, fingerprint := fns.fingerT content,
    ext := toLowerStr (extname path), tags := fns.tagsT content }

/-- The `for (const filePath of files)` loop of `buildIndex` over each
file's read outcome (`.ok content`, or `.error msg` when `readFile`
threw): a readable file pushes one document and one metadata record in
lockstep; a failing file is recorded as a `Skipping path: msg` warning
(the `console.warn` of the `catch`) and the loop continues. -/
def readLoop (fns : FileFns) :
    List (String × Except String String) → List Doc × List DocMeta × List String
  | [] => ([], [], [])
  | (path, .ok content) :: rest =>
    (mkDoc fns path content :: (readLoop fns rest).1,
     mkMeta fns path content :: (readLoop fns rest).2.1,
     (readLoop fns rest).2.2)
  | (path, .error msg) :: rest =>
    ((readLoop fns rest).1, (readLoop fns rest).2.1,
     ("Skipping " ++ path ++ ": " ++ msg) :: (readLoop fns rest).2.2)

/-- The persisted index object of `buildIndex` (the `created` wall-clock
timestamp is not modelled). -/
structure Index where
  version : Nat
  root : String
  hashDim : Nat
  docCount : Nat
  metadata : List DocMeta
  vectors : List (List (Nat × ℚ))
deriving DecidableEq, Repr

/-- The index construction of `buildIndex` after file collection: run the
read loop, vectorize the surviving documents (`vectorizeDocuments` of the
external `@watthem/quarrel` is a parameter), sparse-encode each dense
vector, and assemble the index with `docCount = docs.length`, `version
3`, and `hashDim 2048` as in the source. -/
def buildIndexCore (fns : FileFns) (vectorize : List Doc → List (List ℚ))
    (root : String) (reads : List (String × Except String String)) : Index :=
  { version := 3, root := root, hashDim := 2048,
    docCount := (readLoop fns reads).1.length,
    metadata := (readLoop fns reads).2.1,
    vectors := (vectorize (readLoop fns reads).1).map sparsify }

theorem readLoop_lengths (fns : FileFns)
    (reads : List (String × Except String String)) :
    (readLoop fns reads).2.1.length = (readLoop fns reads).1.length := by
  induction reads with
  | nil => rfl
  | cons r rest ih =>
    rcases r with ⟨path, res⟩
    cases res <;> simp [readLoop, ih]

theorem readLoop_id_aligned (fns : FileFns)
    (reads : List (String × Except String String)) (k : Nat) :
    ((readLoop fns reads).2.1.get? k).map DocMeta.id =
      ((readLoop fns reads).1.get? k).map Doc.id := by
  induction reads generalizing k with
  | nil => rfl
  | cons r rest ih =>
    rcases r with ⟨path, res⟩
    cases res with
    | error msg => simpa [readLoop] using ih k
    | ok content =>
      cases k with
      | zero => simp [readLoop, mkDoc, mkMeta]
      | succ k => simpa [readLoop] using ih k

/-- C7: every index written by the build has
`metadata.length = vectors.length = docCount` (given the vectorizer's
contract of one dense vector per document, §4.3 of the spec), and the
sequences are index-aligned: the metadata record at position `k` carries
the same document id as the document at position `k`, and the vector at
position `k` is the sparse encoding of that document's dense vector. -/
theorem buildIndex_length_invariant (fns : FileFns)
    (vectorize : List Doc → List (List ℚ)) (root : String)
    (reads : List (String × Except String String))
    (hvec : ∀ docs, (vectorize docs).length = docs.length) :
    (buildIndexCore fns vectorize root reads).metadata.length =
      (buildIndexCore fns vectorize root reads).vectors.length ∧
    (buildIndexCore fns vectorize root reads).vectors.length =
      (buildIndexCore fns vectorize root reads).docCount ∧
    (∀ k, ((buildIndexCore fns vectorize root reads).metadata.get? k).map DocMeta.id =
      ((readLoop fns reads).1.get? k).map Doc.id) ∧
    (∀ k, (buildIndexCore fns vectorize root reads).vectors.get? k =
      ((vectorize (readLoop fns reads).1).get? k).map sparsify) := by
  refine ⟨?_, ?_, ?_, ?_⟩
  · simp [buildIndexCore, readLoop_lengths, hvec]
  · simp [buildIndexCore, hvec]
  · intro k
    simpa [buildIndexCore] using readLoop_id_aligned fns reads k
  · intro k
    simp [buildIndexCore, List.getElem?_map]

/-- Witness for C7 at a concrete input (one readable file, one failing
file, a one-vector-per-document vectorizer). -/
theorem buildIndex_length_invariant_witness :
    (buildIndexCore ⟨fun p => p, fun c _ => c, fun c _ => c, fun c => c, fun _ => []⟩
        (fun docs => docs.map fun _ => [1]) "/w"
        [("a.md", .ok "hello"), ("bad.md", .error "EACCES")]).metadata.length =
      (buildIndexCore ⟨fun p => p, fun c _ => c, fun c _ => c, fun c => c, fun _ => []⟩
        (fun docs => docs.map fun _ => [1]) "/w"
        [("a.md", .ok "hello"), ("bad.md", .error "EACCES")]).vectors.length :=
  (buildIndex_length_invariant _ _ _ _ (by intro docs; simp)).1

/-- C8: a per-file read error is recovered locally — the index built from
a file list containing an unreadable file is exactly the index built from
the list without it (the document is excluded and the build continues over
the remaining files), and the failing file contributes exactly one
`Skipping path: msg` warning, in position, to the warning log. -/
theorem buildIndex_skips_unreadable (fns : FileFns)
    (vectorize : List Doc → List (List ℚ)) (root : String)
    (pre post : List (String × Except String String)) (path msg : String) :
    buildIndexCore fns vectorize root (pre ++ (path, .error msg) :: post) =
      buildIndexCore fns vectorize root (pre ++ post) ∧
    (readLoop fns (pre ++ (path, .error msg) :: post)).2.2 =
      (readLoop fns pre).2.2 ++
        ("Skipping " ++ path ++ ": " ++ msg) :: (readLoop fns post).2.2 := by
  have key : ∀ pre' : List (String × Except String String),
      (readLoop fns (pre' ++ (path, .error msg) :: post)).1 =
        (readLoop fns (pre' ++ post)).1 ∧
      (readLoop fns (pre' ++ (path, .error msg) :: post)).2.1 =
        (readLoop fns (pre' ++ post)).2.1 ∧
      (readLoop fns (pre' ++ (path, .error msg) :: post)).2.2 =
        (readLoop fns pre').2.2 ++
          ("Skipping " ++ path ++ ": " ++ msg) :: (readLoop fns post).2.2 := by
    intro pre'
    induction pre' with
    | nil => exact ⟨rfl, rfl, rfl⟩
    | cons r rest ih =>
      rcases r with ⟨p, res⟩
      cases res <;> simp [readLoop, ih.1, ih.2.1, ih.2.2]
  refine ⟨?_, (key pre).2.2⟩
  simp only [buildIndexCore, (key pre).1, (key pre).2.1]

/-! ## File collection (`collectFiles`, index script)

The file system seen by the traversal is a tree of named entries; a
directory whose `readdir` throws (permissions, races) is a `udir` node —
the `catch` in `collectFiles` turns that failure into returning the
accumulated list.  Collected paths are segment lists relative to the
traversal root. -/

mutual
/-- A directory entry as `collectFiles` sees it. -/
inductive FsTree where
  | file (name : String)
  | dir (name : String) (entries : FsList)
  | udir (name : String)
inductive FsList where
  | nil
  | cons (t : FsTree) (ts : FsList)
end

/-- Concatenation of entry lists (used to state where an unreadable
subdirectory sits among its siblings). -/
def FsList.append : FsList → FsList → FsList
  | .nil, ys => ys
  | .cons x xs, ys => .cons x (xs.append ys)

/-- The two filters of `collectFiles`: `options.excludedDirs` and
`options.allowedExtensions` (the build passes CLI options without these
fields, so the `DEFAULT_CONFIG` values of shared.mjs apply). -/
structure CollectOpts where
  excludedDirs : List String
  allowedExtensions : List String
deriving DecidableEq, Repr

/-- `DEFAULT_CONFIG` (shared.mjs): the default excluded directory names
and allowed extensions. -/
def DEFAULT_CONFIG : CollectOpts :=
  { excludedDirs :=
      ["node_modules", "venv", ".venv", "target", ".git", "dist", "build",
       "__pycache__", ".pnpm-store", ".netlify", "archives", ".next",
       ".cache", "coverage"],
    allowedExtensions := [".md", ".ts", ".tsx", ".js", ".jsx", ".py", ".rs", ".go"] }

/-- `getDefaultIndexDir` (shared.mjs): the index is stored in a
`.similar-files` directory directly under the workspace root — as a
segment list relative to the root, `[".similar-files"]`. -/
def getDefaultIndexDirSegs : List String := [".similar-files"]

/-- `entry.name.startsWith('.')` — whether a name begins with a dot,
via its first character. -/
def startsWithDot (n : String) : Bool := n.toList.head? == some '.'

mutual
/-- `collectFiles(dir, options, files)` (index script): `readdir` the
directory — a non-directory or an unreadable directory returns the
accumulated list unchanged (the `catch`) — then run the entry loop over
the listing. -/
def collectFiles (t : FsTree) (opts : CollectOpts) (pfx : List String)
    (files : List (List String)) : List (List String) :=
  match t with
  | .file _ => files
  | .udir _ => files
  | .dir _ entries => collectEntries entries opts pfx files

/-- The `for (const entry of entries)` loop of `collectFiles`: a
subdirectory is recursed into (listing its entries — `collectFiles` on
it) unless its name is in the excluded set or starts with a dot; a file
is collected when its lowercased extension is in the allowed set; the
recursion into an unreadable subdirectory returns the accumulated list
unchanged, so the loop continues with the remaining entries. -/
def collectEntries (es : FsList) (opts : CollectOpts) (pfx : List String)
    (files : List (List String)) : List (List String) :=
  match es with
  | .nil => files
  | .cons (.file n) rest =>
    collectEntries rest opts pfx
      (if toLowerStr (extname n) ∈ opts.allowedExtensions then
        files ++ [pfx ++ [n]]
      else files)
  | .cons (.dir n sub) rest =>
    collectEntries rest opts pfx
      (if n ∉ opts.excludedDirs ∧ startsWithDot n = false then
        collectEntries sub opts (pfx ++ [n]) files
      else files)
  | .cons (.udir _) rest => collectEntries rest opts pfx files
end

/-- Recursing into a readable subdirectory is exactly running the entry
loop on its listing. -/
theorem collectFiles_dir (n : String) (sub : FsList) (opts : CollectOpts)
    (pfx : List String) (files : List (List String)) :
    collectFiles (.dir n sub) opts pfx files = collectEntries sub opts pfx files := rfl

/-- A collected path is well-formed for the given filters: every
directory component is neither excluded nor dot-prefixed, and the file
name's lowercased extension is allowed. -/
def collectedOk (opts : CollectOpts) (p : List String) : Prop :=
  (∀ d ∈ p.dropLast, d ∉ opts.excludedDirs ∧ startsWithDot d = false) ∧
  ∃ n, p.getLast? = some n ∧ toLowerStr (extname n) ∈ opts.allowedExtensions

theorem collectEntries_sound (opts : CollectOpts) :
    ∀ (es : FsList) (pfx : List String) (files : List (List String)),
      (∀ d ∈ pfx, d ∉ opts.excludedDirs ∧ startsWithDot d = false) →
      (∀ p ∈ files, collectedOk opts p) →
      ∀ p ∈ collectEntries es opts pfx files, collectedOk opts p
  | .nil, pfx, files, hpfx, hfiles => by
    simpa [collectEntries] using hfiles
  | .cons (.file n) rest, pfx, files, hpfx, hfiles => by
    simp only [collectEntries]
    refine collectEntries_sound opts rest pfx _ hpfx ?_
    split
    · rename_i hext
      intro p hp
      rcases List.mem_append.mp hp with hp | hp
      · exact hfiles p hp
      · rcases List.mem_singleton.mp hp with rfl
        exact ⟨by simpa [List.dropLast_concat] using hpfx, n,
          by simp [List.getLast?_concat], hext⟩
    · exact hfiles
  | .cons (.dir n sub) rest, pfx, files, hpfx, hfiles => by
    simp only [collectEntries]
    refine collectEntries_sound opts rest pfx _ hpfx ?_
    split
    · rename_i hgood
      refine collectEntries_sound opts sub (pfx ++ [n]) files ?_ hfiles
      intro d hd
      rcases List.mem_append.mp hd with hd | hd
      · exact hpfx d hd
      · rcases List.mem_singleton.mp hd with rfl
        exact hgood
    · exact hfiles
  | .cons (.udir n) rest, pfx, files, hpfx, hfiles => by
    simp only [collectEntries]
    exact collectEntries_sound opts rest pfx files hpfx hfiles

/-- C9: from the workspace root, every path collected by `collectFiles`
has only directory components that are neither in the excluded set nor
dot-prefixed, and a file name whose lowercased extension is in the
allowed set; consequently no collected path passes through the
`.similar-files` index directory (its name starts with a dot), so
previously written index files are never picked up as documents of a
rebuilt corpus. -/
theorem collectFiles_skips_index_dir (t : FsTree) (opts : CollectOpts) :
    (∀ p ∈ collectFiles t opts [] [],
      (∀ d ∈ p.dropLast, d ∉ opts.excludedDirs ∧ startsWithDot d = false) ∧
      ∃ n, p.getLast? = some n ∧ toLowerStr (extname n) ∈ opts.allowedExtensions) ∧
    ∀ p ∈ collectFiles t opts [] [], ∀ d ∈ getDefaultIndexDirSegs, d ∉ p.dropLast := by
  have hsound : ∀ p ∈ collectFiles t opts [] [], collectedOk opts p := by
    cases t with
    | file n => simp [collectFiles]
    | udir n => simp [collectFiles]
    | dir n es =>
      simpa [collectFiles] using
        collectEntries_sound opts es [] [] (by simp) (by simp)
  refine ⟨hsound, ?_⟩
  intro p hp d hd hmem
  rcases List.mem_singleton.mp hd with rfl
  have h := ((hsound p hp).1 ".similar-files" hmem).2
  exact absurd h (by decide)

/-- Witness for C9 at a concrete tree: the collected path `["a.md"]`
(the only one — `.similar-files/index.json` and `node_modules/b.md` are
skipped) satisfies the soundness property. -/
theorem collectFiles_skips_index_dir_witness :
    (∀ d ∈ (["a.md"] : List String).dropLast,
        d ∉ DEFAULT_CONFIG.excludedDirs ∧ startsWithDot d = false) ∧
    ∃ n, (["a.md"] : List String).getLast? = some n ∧
      toLowerStr (extname n) ∈ DEFAULT_CONFIG.allowedExtensions :=
  (collectFiles_skips_index_dir
      (.dir "root" (.cons (.file "a.md")
        (.cons (.dir ".similar-files" (.cons (.file "index.json") .nil))
          (.cons (.dir "node_modules" (.cons (.file "b.md") .nil)) .nil))))
      DEFAULT_CONFIG).1 ["a.md"] (by decide)

theorem collectEntries_skip_udir (opts : CollectOpts) (pfx : List String)
    (u : String) (es2 : FsList) :
    ∀ (es1 : FsList) (files : List (List String)),
      collectEntries (es1.append (.cons (.udir u) es2)) opts pfx files =
        collectEntries (es1.append es2) opts pfx files
  | .nil, files => by
    simp only [FsList.append, collectEntries]
  | .cons (.file n) es1, files => by
    simp only [FsList.append, collectEntries]
    exact collectEntries_skip_udir opts pfx u es2 es1 _
  | .cons (.dir n sub) es1, files => by
    simp only [FsList.append, collectEntries]
    exact collectEntries_skip_udir opts pfx u es2 es1 _
  | .cons (.udir n) es1, files => by
    simp only [FsList.append, collectEntries]
    exact collectEntries_skip_udir opts pfx u es2 es1 files

/-- C10: traversal never fails on an unreadable directory —
`collectFiles` on a directory whose entries cannot be read returns the
accumulated file list unchanged, and a traversal whose listing contains
an unreadable subdirectory anywhere among its entries produces exactly
the files of the same traversal without it (the remaining siblings are
still processed). -/
theorem collectFiles_total_on_unreadable :
    (∀ (n : String) (opts : CollectOpts) (pfx : List String)
        (files : List (List String)),
      collectFiles (.udir n) opts pfx files = files) ∧
    ∀ (name u : String) (es1 es2 : FsList) (opts : CollectOpts)
        (pfx : List String) (files : List (List String)),
      collectFiles (.dir name (es1.append (.cons (.udir u) es2))) opts pfx files =
        collectFiles (.dir name (es1.append es2)) opts pfx files := by
  refine ⟨fun n opts pfx files => rfl, ?_⟩
  intro name u es1 es2 opts pfx files
  simp only [collectFiles]
  exact collectEntries_skip_udir opts pfx u es2 es1 files

/-- Witness for C10 at a concrete input: an unreadable directory in the
middle of a listing leaves the collected files those of the remaining
readable entries. -/
theorem collectFiles_total_on_unreadable_witness :
    collectFiles
        (.dir "root" ((FsList.cons (.file "a.md") .nil).append
          (.cons (.udir "locked") (.cons (.file "b.md") .nil))))
        DEFAULT_CONFIG [] [] =
      collectFiles
        (.dir "root" ((FsList.cons (.file "a.md") .nil).append
          (.cons (.file "b.md") .nil)))
        DEFAULT_CONFIG [] [] :=
  collectFiles_total_on_unreadable.2 "root" "locked"
    (FsList.cons (.file "a.md") .nil) (.cons (.file "b.md") .nil)
    DEFAULT_CONFIG [] []

end SimilarFiles
